import Mathlib

/-!
# Verification of the domaintwistex permutation pipeline

The repository's source (`src/native/domaintwistex/src/lib.rs`) is a thin
NIF wrapper around a domain-permutation engine: it parses the input string
(`Domain::new`), collects all permutations (`domain.all()`) into a
`HashSet<Permutation>` (structural equality on the whole record), maps each
surviving permutation to a record `{fqdn, tld, kind}` where `kind` is the
debug rendering of the strategy tag, and swallows both the parse-failure and
the generation-failure branches into `Ok(empty)`.

The permutation engine itself (parser, mutation strategies, candidate
re-validation) is not part of the repository source, so it is modelled here
from the specification (spec.md §4.1–§4.4): a parser that lowercases,
validates length/labels and matches the longest known public suffix, plus the
thirteen mutation strategies of §4.2, each of whose raw candidates is
re-validated by re-parsing before emission.  External static tables (TLD
list, alphabet, confusable table, keyboard-adjacency table, keyword list) are
fixed concrete configuration data, as the spec prescribes.
-/

namespace DomainTwistEx

/-- Modelled from the spec (§4.1): ASCII lowercasing of a single character.
The parser "normalizes case to lowercase before any further processing". -/
def lowerChar (c : Char) : Char :=
  if 65 ≤ c.toNat ∧ c.toNat ≤ 90 then Char.ofNat (c.toNat + 32) else c

/-- Modelled from the spec (§4.1): lowercase normalization of a string. -/
def toLowerStr (s : String) : String :=
  String.mk (s.data.map lowerChar)

/-- Modelled from the spec (§4.1): a character legal inside a domain label
(lowercase letter, digit, or hyphen). -/
def isDomainChar (c : Char) : Bool :=
  (decide (97 ≤ c.toNat) && decide (c.toNat ≤ 122)) ||
  (decide (48 ≤ c.toNat) && decide (c.toNat ≤ 57)) ||
  (c == '-')

/-- Modelled from the spec (§4.1): split a character list on the label
separator. Splitting the empty list yields one empty label. -/
def splitOnDot : List Char → List (List Char)
  | [] => [[]]
  | c :: rest =>
    match splitOnDot rest with
    | [] => [[]]
    | l :: ls => if c = '.' then [] :: l :: ls else (c :: l) :: ls

/-- Inverse of `splitOnDot`: rejoin labels with dots. -/
def joinDots : List (List Char) → List Char
  | [] => []
  | [l] => l
  | l :: ls => l ++ '.' :: joinDots ls

/-- Modelled from the spec (§4.1): a label is legal when it is non-empty, at
most 63 characters long, and made of legal domain characters. -/
def labelOk (l : List Char) : Bool :=
  decide (0 < l.length) && decide (l.length ≤ 63) && l.all isDomainChar

/-- Modelled from the spec (§4.1, §6): the external public-suffix / TLD list,
fixed configuration data. -/
def tldList : List String :=
  ["com", "net", "org", "co.uk", "uk", "io"]

/-- Label decomposition of a TLD entry. -/
def labelsOf (t : String) : List (List Char) :=
  splitOnDot t.data

/-- Modelled from the spec (§4.1): a TLD entry matches when its labels are a
proper suffix of the input's labels (at least one label must precede it). -/
def tldMatches (labels : List (List Char)) (t : String) : Bool :=
  decide ((labelsOf t).length < labels.length) && (labelsOf t).isSuffixOf labels

/-- Modelled from the spec (§4.1): pick the longest matching suffix from the
matched entries; among equals the earliest-listed entry wins, so the choice is
deterministic. -/
def pickLongest : List String → Option String
  | [] => none
  | t :: ts =>
    match pickLongest ts with
    | none => some t
    | some u => if (labelsOf t).length < (labelsOf u).length then some u else some t

/-- The parsed-domain value (spec §3 `ParsedDomain`, source field names of the
engine's `Domain`): the normalized full name, the registrable root, and the
public suffix. -/
structure Domain where
  fqdn : String
  root : String
  tld : String
deriving DecidableEq

/-- Modelled from the spec (§4.1): parse an already-lowercased string.
Rejects the empty string, strings longer than 253 characters, illegal labels,
and strings without a recognizable public suffix; otherwise the label
immediately preceding the longest matching suffix is the root. -/
def Domain.ofLower (s : String) : Option Domain :=
  if s.data.length = 0 then none
  else if 253 < s.data.length then none
  else if (splitOnDot s.data).all labelOk then
    match pickLongest (tldList.filter (tldMatches (splitOnDot s.data))) with
    | none => none
    | some t =>
      match ((splitOnDot s.data).take ((splitOnDot s.data).length - (labelsOf t).length)).getLast? with
      | none => none
      | some root => some ⟨s, String.mk root, t⟩
  else none

/-- Modelled from the spec (§4.1): the parser entry point — lowercase then
parse.  `none` plays the role of the parse error (`InvalidDomain` /
`InputTooLarge`); the source matches on it at the boundary. -/
def Domain.new (input : String) : Option Domain :=
  Domain.ofLower (toLowerStr input)

/-- The closed enumeration of mutation-strategy tags (spec §3
`MutationKind`). -/
inductive MutationKind where
  | Addition
  | BitSquatting
  | Homoglyph
  | Hyphenation
  | Insertion
  | Omission
  | Repetition
  | Replacement
  | Subdomain
  | Transposition
  | VowelSwap
  | TldVariation
  | Combosquatting
deriving DecidableEq

/-- The stable string rendering of a strategy tag — in the source this is the
debug formatting of the tag variant (`lib.rs` line 36). -/
def kindString : MutationKind → String
  | .Addition => "Addition"
  | .BitSquatting => "BitSquatting"
  | .Homoglyph => "Homoglyph"
  | .Hyphenation => "Hyphenation"
  | .Insertion => "Insertion"
  | .Omission => "Omission"
  | .Repetition => "Repetition"
  | .Replacement => "Replacement"
  | .Subdomain => "Subdomain"
  | .Transposition => "Transposition"
  | .VowelSwap => "VowelSwap"
  | .TldVariation => "TldVariation"
  | .Combosquatting => "Combosquatting"

/-- The closed set of strategy-name strings (spec §6: `kind` is one of a
fixed set of stable identifiers). -/
def kindStrings : List String :=
  ["Addition", "BitSquatting", "Homoglyph", "Hyphenation", "Insertion",
   "Omission", "Repetition", "Replacement", "Subdomain", "Transposition",
   "VowelSwap", "TldVariation", "Combosquatting"]

/-- A permutation record of the engine: a parsed candidate domain tagged with
the strategy that produced it (spec §3 `Candidate` at the engine level; the
source consumes `p.domain.fqdn`, `p.domain.tld`, `p.kind`).  Equality is
structural on the whole record, matching the record's derived equality used
by the source's hash set. -/
structure Permutation where
  domain : Domain
  kind : MutationKind
deriving DecidableEq

/-- Modelled from the spec (§4.2 Addition): the fixed alphabet used by the
Addition and Insertion strategies — external configuration data. -/
def alphabet : List Char :=
  "abcdefghijklmnopqrstuvwxyz".data

/-- Modelled from the spec (§4.2 VowelSwap): the vowels. -/
def vowels : List Char :=
  "aeiou".data

/-- Modelled from the spec (§4.2 Homoglyph): the external confusable-character
table, fixed configuration data. -/
def homoglyphTable : List (Char × Char) :=
  [('o', '0'), ('i', '1'), ('l', '1'), ('e', '3'), ('a', '4'), ('s', '5'),
   ('t', '7'), ('b', '8'), ('g', '9')]

/-- Modelled from the spec (§4.2 Replacement): the external QWERTY
keyboard-adjacency table, fixed configuration data. -/
def qwertyAdjacent : List (Char × List Char) :=
  [('q', "wa".data), ('w', "qes".data), ('e', "wrd".data), ('r', "etf".data),
   ('t', "ryg".data), ('y', "tuh".data), ('u', "yij".data), ('i', "uok".data),
   ('o', "ipl".data), ('p', "o".data), ('a', "qsz".data), ('s', "awdx".data),
   ('d', "sefc".data), ('f', "drgv".data), ('g', "fthb".data), ('h', "gyjn".data),
   ('j', "hukm".data), ('k', "jil".data), ('l', "ko".data), ('z', "asx".data),
   ('x', "zsdc".data), ('c', "xdfv".data), ('v', "cfgb".data), ('b', "vghn".data),
   ('n', "bhjm".data), ('m', "njk".data)]

/-- Modelled from the spec (§4.2 Combosquatting): the external brand/keyword
list, fixed configuration data. -/
def keywordList : List String :=
  ["secure", "login", "support", "mail"]

/-- Build a candidate FQDN from a (mutated) root and a TLD. -/
def mkFqdn (root : List Char) (tld : String) : String :=
  String.mk (root ++ '.' :: tld.data)

/-- Modelled from the spec (§4.2 Addition): append each alphabet character to
the end of the root. -/
def additionCands (root : List Char) (tld : String) : List String :=
  alphabet.map fun c => mkFqdn (root ++ [c]) tld

/-- Modelled from the spec (§4.2 BitSquatting): flip each single bit of each
character of the root, keeping only results that remain valid domain
characters. -/
def bitSquattingCands (root : List Char) (tld : String) : List String :=
  (List.range root.length).flatMap fun i =>
    (List.range 8).filterMap fun b =>
      match root[i]? with
      | none => none
      | some c =>
        let c' := Char.ofNat (c.toNat ^^^ (1 <<< b))
        if isDomainChar c' then some (mkFqdn (root.set i c') tld) else none

/-- Modelled from the spec (§4.2 Homoglyph): substitute confusable characters
from the table, one position at a time. -/
def homoglyphCands (root : List Char) (tld : String) : List String :=
  (List.range root.length).flatMap fun i =>
    homoglyphTable.filterMap fun p =>
      match root[i]? with
      | none => none
      | some c => if c = p.1 then some (mkFqdn (root.set i p.2) tld) else none

/-- Modelled from the spec (§4.2 Hyphenation): insert a hyphen at each internal
position of the root. -/
def hyphenationCands (root : List Char) (tld : String) : List String :=
  (List.range (root.length - 1)).map fun i =>
    mkFqdn (root.take (i + 1) ++ '-' :: root.drop (i + 1)) tld

/-- Modelled from the spec (§4.2 Insertion): insert each alphabet character at
each position within the root. -/
def insertionCands (root : List Char) (tld : String) : List String :=
  (List.range (root.length + 1)).flatMap fun i =>
    alphabet.map fun c => mkFqdn (root.take i ++ c :: root.drop i) tld

/-- Modelled from the spec (§4.2 Omission): remove each single character of
the root, one position at a time. -/
def omissionCands (root : List Char) (tld : String) : List String :=
  (List.range root.length).map fun i => mkFqdn (root.eraseIdx i) tld

/-- Modelled from the spec (§4.2 Repetition): duplicate each character of the
root in place, one position at a time. -/
def repetitionCands (root : List Char) (tld : String) : List String :=
  (List.range root.length).map fun i =>
    mkFqdn (root.take (i + 1) ++ root.drop i) tld

/-- Modelled from the spec (§4.2 Replacement): substitute each character with
each keyboard-adjacent character, one position at a time. -/
def replacementCands (root : List Char) (tld : String) : List String :=
  (List.range root.length).flatMap fun i =>
    match root[i]? with
    | none => []
    | some c =>
      match qwertyAdjacent.lookup c with
      | none => []
      | some adj => adj.map fun c' => mkFqdn (root.set i c') tld

/-- Modelled from the spec (§4.2 Subdomain): insert a dot at each internal
position of the root, creating a spurious subdomain split. -/
def subdomainCands (root : List Char) (tld : String) : List String :=
  (List.range (root.length - 1)).map fun i =>
    mkFqdn (root.take (i + 1) ++ '.' :: root.drop (i + 1)) tld

/-- Modelled from the spec (§4.2 Transposition): swap each pair of adjacent
characters of the root. -/
def transpositionCands (root : List Char) (tld : String) : List String :=
  (List.range (root.length - 1)).map fun i =>
    mkFqdn (root.take i ++ ((root.drop i).take 2).reverse ++ root.drop (i + 2)) tld

/-- Modelled from the spec (§4.2 VowelSwap): substitute each vowel with every
other vowel, one position at a time. -/
def vowelSwapCands (root : List Char) (tld : String) : List String :=
  (List.range root.length).flatMap fun i =>
    match root[i]? with
    | none => []
    | some c =>
      if c ∈ vowels then (vowels.filter (fun v => v ≠ c)).map fun v => mkFqdn (root.set i v) tld
      else []

/-- Modelled from the spec (§4.2 TldVariation): re-pair the root with each TLD
from the fixed candidate TLD list, holding the root fixed. -/
def tldVariationCands (root : List Char) : List String :=
  tldList.map fun t => mkFqdn root t

/-- Modelled from the spec (§4.2 Combosquatting): concatenate the root with
each keyword, with and without a separator. -/
def combosquattingCands (root : List Char) (tld : String) : List String :=
  keywordList.flatMap fun kw =>
    [mkFqdn (root ++ kw.data) tld, mkFqdn (root ++ '-' :: kw.data) tld]

/-- Modelled from the spec (§4.2): the raw candidate strings of one strategy,
before re-validation. -/
def strategyCands (d : Domain) : MutationKind → List String
  | .Addition => additionCands d.root.data d.tld
  | .BitSquatting => bitSquattingCands d.root.data d.tld
  | .Homoglyph => homoglyphCands d.root.data d.tld
  | .Hyphenation => hyphenationCands d.root.data d.tld
  | .Insertion => insertionCands d.root.data d.tld
  | .Omission => omissionCands d.root.data d.tld
  | .Repetition => repetitionCands d.root.data d.tld
  | .Replacement => replacementCands d.root.data d.tld
  | .Subdomain => subdomainCands d.root.data d.tld
  | .Transposition => transpositionCands d.root.data d.tld
  | .VowelSwap => vowelSwapCands d.root.data d.tld
  | .TldVariation => tldVariationCands d.root.data
  | .Combosquatting => combosquattingCands d.root.data d.tld

/-- Modelled from the spec (§4.4): the fixed, stable strategy ordering under
which all strategies are run. -/
def strategyOrder : List MutationKind :=
  [.Addition, .BitSquatting, .Homoglyph, .Hyphenation, .Insertion, .Omission,
   .Repetition, .Replacement, .Subdomain, .Transposition, .VowelSwap,
   .TldVariation, .Combosquatting]

/-- Modelled from the spec (§4.2): each raw candidate is re-validated for
syntactic domain legality by re-parsing before being emitted; illegal
byproducts are silently dropped.  The surviving candidate's own parse supplies
its `tld` (spec §3). -/
def mkPermutation (k : MutationKind) (s : String) : Option Permutation :=
  (Domain.new s).map fun d => ⟨d, k⟩

/-- Modelled from the spec (§4.2): run every strategy over the parsed domain
and concatenate the validated outputs — the engine's `all()`. -/
def Domain.all (d : Domain) : List Permutation :=
  strategyOrder.flatMap fun k => (strategyCands d k).filterMap (mkPermutation k)

/-- The boundary error type of the NIF result (`NifResult`); `lib.rs` never
constructs it. -/
inductive NifError where
  | badArg
deriving DecidableEq

/-- The engine-side generation error type: `domain.all()` returns a fallible
value in the source, and `lib.rs` line 29 maps its error to an empty result.
Modelled from the spec (§4.2): "a strategy never fails the overall
generation", so the error is never actually produced. -/
inductive GenerationError where
  | failed
deriving DecidableEq

/-- The fallible generation call as the source sees it (`domain.all()`). -/
def Domain.allE (d : Domain) : Except GenerationError (List Permutation) :=
  .ok d.all

/-- The emitted result record of `lib.rs` (struct `Result`, lines 8–12). -/
structure Result where
  fqdn : String
  tld : String
  kind : String
deriving DecidableEq

/-- The projection `lib.rs` lines 33–37 applies to each surviving
permutation. -/
def toResult (p : Permutation) : Result :=
  ⟨p.domain.fqdn, p.domain.tld, kindString p.kind⟩

/-- The NIF entry point, `lib.rs` lines 17–41: parse (empty result on parse
failure), generate (empty result on generation failure), deduplicate the
permutation records by collecting them into a set (structural equality on the
whole record), and map each survivor to a `Result`.  `List.dedup` models the
`HashSet` collection: same members, no duplicate records. -/
def generate_permutations (domain_str : String) : Except NifError (List Result) :=
  match Domain.new domain_str with
  | none => .ok []
  | some domain =>
    match domain.allE with
    | .error _ => .ok []
    | .ok perms => .ok (perms.dedup.map toResult)

/-- The record collection of a run, unwrapped from the always-`ok` boundary
result. -/
def permutationResults (s : String) : List Result :=
  match generate_permutations s with
  | .ok l => l
  | .error _ => []

/-! ## Parser lemmas -/

theorem splitOnDot_ne_nil (cs : List Char) : splitOnDot cs ≠ [] := by
  induction cs with
  | nil => simp [splitOnDot]
  | cons c rest ih =>
    unfold splitOnDot
    cases h : splitOnDot rest with
    | nil => simp
    | cons l ls => dsimp only; split <;> simp

theorem joinDots_cons_cons (c : Char) (l : List Char) (ls : List (List Char)) :
    joinDots ((c :: l) :: ls) = c :: joinDots (l :: ls) := by
  cases ls <;> simp [joinDots]

theorem joinDots_splitOnDot (cs : List Char) : joinDots (splitOnDot cs) = cs := by
  induction cs with
  | nil => rfl
  | cons c rest ih =>
    unfold splitOnDot
    cases h : splitOnDot rest with
    | nil => exact absurd h (splitOnDot_ne_nil rest)
    | cons l ls =>
      rw [h] at ih
      by_cases hc : c = '.'
      · subst hc
        simp only [if_pos rfl]
        show joinDots ([] :: l :: ls) = '.' :: rest
        calc joinDots ([] :: l :: ls) = '.' :: joinDots (l :: ls) := by simp [joinDots]
        _ = '.' :: rest := by rw [ih]
      · simp only [if_neg hc]
        rw [joinDots_cons_cons, ih]

theorem mem_joinDots {c : Char} {ls : List (List Char)} (h : c ∈ joinDots ls) :
    c = '.' ∨ ∃ l ∈ ls, c ∈ l := by
  induction ls with
  | nil => simp [joinDots] at h
  | cons l ls ih =>
    cases ls with
    | nil =>
      simp only [joinDots] at h
      exact .inr ⟨l, by simp, h⟩
    | cons l' ls' =>
      simp only [joinDots, List.mem_append, List.mem_cons] at h
      rcases h with h | h | h
      · exact .inr ⟨l, by simp, h⟩
      · exact .inl h
      · rcases ih h with h' | ⟨u, hu, hcu⟩
        · exact .inl h'
        · exact .inr ⟨u, by simp [hu], hcu⟩

theorem lowerChar_fix {c : Char} (h : isDomainChar c = true) : lowerChar c = c := by
  unfold isDomainChar at h
  simp only [Bool.or_eq_true, Bool.and_eq_true, decide_eq_true_eq, beq_iff_eq] at h
  unfold lowerChar
  rcases h with (⟨h1, h2⟩ | ⟨h1, h2⟩) | h3
  · rw [if_neg (by omega)]
  · rw [if_neg (by omega)]
  · subst h3; decide

theorem labelOk_chars {l : List Char} (h : labelOk l = true) :
    ∀ c ∈ l, isDomainChar c = true := by
  unfold labelOk at h
  simp only [Bool.and_eq_true, List.all_eq_true] at h
  exact h.2

theorem toLowerStr_fix {s : String}
    (h : (splitOnDot s.data).all labelOk = true) : toLowerStr s = s := by
  have hc : ∀ c ∈ s.data, lowerChar c = c := by
    intro c hcs
    have hj : c ∈ joinDots (splitOnDot s.data) := by
      rw [joinDots_splitOnDot]; exact hcs
    rcases mem_joinDots hj with h' | ⟨l, hl, hcl⟩
    · subst h'; decide
    · exact lowerChar_fix (labelOk_chars (List.all_eq_true.mp h l hl) c hcl)
  unfold toLowerStr
  have hmap : ∀ cs : List Char, (∀ c ∈ cs, lowerChar c = c) → cs.map lowerChar = cs := by
    intro cs
    induction cs with
    | nil => intro _; rfl
    | cons c cs ih =>
      intro hall
      simp only [List.map_cons, hall c (by simp)]
      rw [ih (fun c h' => hall c (by simp [h']))]
  rw [hmap s.data hc]

theorem ofLower_inv {s : String} {d : Domain} (h : Domain.ofLower s = some d) :
    d.fqdn = s ∧ (splitOnDot s.data).all labelOk = true := by
  unfold Domain.ofLower at h
  split at h
  · exact absurd h (by simp)
  split at h
  · exact absurd h (by simp)
  split at h
  case isTrue hall =>
    split at h
    · exact absurd h (by simp)
    split at h
    · exact absurd h (by simp)
    · injection h with h
      subst h
      exact ⟨rfl, hall⟩
  case isFalse => exact absurd h (by simp)

theorem new_fqdn {s : String} {d : Domain} (h : Domain.new s = some d) :
    d.fqdn = toLowerStr s :=
  (ofLower_inv h).1

/-- A parsed domain is canonical: re-parsing its own fqdn returns it
unchanged. -/
def Canonical (d : Domain) : Prop :=
  Domain.new d.fqdn = some d

theorem canonical_of_new {s : String} {d : Domain} (h : Domain.new s = some d) :
    Canonical d := by
  obtain ⟨hf, hall⟩ := ofLower_inv (h : Domain.ofLower (toLowerStr s) = some d)
  unfold Canonical Domain.new
  rw [hf, toLowerStr_fix hall]
  exact h

theorem canonical_inj {d₁ d₂ : Domain} (h₁ : Canonical d₁) (h₂ : Canonical d₂)
    (hf : d₁.fqdn = d₂.fqdn) : d₁ = d₂ := by
  unfold Canonical at h₁ h₂
  rw [hf] at h₁
  rw [h₁] at h₂
  exact Option.some_injective _ h₂

/-! ## Pipeline lemmas -/

theorem generate_permutations_eq_ok {s : String} {dom : Domain}
    (h : Domain.new s = some dom) :
    generate_permutations s = .ok ((Domain.all dom).dedup.map toResult) := by
  unfold generate_permutations
  rw [h]
  rfl

theorem generate_permutations_eq_nil {s : String}
    (h : Domain.new s = none) : generate_permutations s = .ok [] := by
  unfold generate_permutations
  rw [h]

theorem permutationResults_eq {s : String} {dom : Domain}
    (h : Domain.new s = some dom) :
    permutationResults s = (Domain.all dom).dedup.map toResult := by
  unfold permutationResults
  rw [generate_permutations_eq_ok h]

theorem permutationResults_nil {s : String}
    (h : Domain.new s = none) : permutationResults s = [] := by
  unfold permutationResults
  rw [generate_permutations_eq_nil h]

theorem mem_all_intro {d : Domain} {k : MutationKind} {cand : String} {p : Permutation}
    (hk : k ∈ strategyOrder) (hc : cand ∈ strategyCands d k)
    (hp : mkPermutation k cand = some p) : p ∈ d.all := by
  unfold Domain.all
  exact List.mem_flatMap.mpr ⟨k, hk, List.mem_filterMap.mpr ⟨cand, hc, hp⟩⟩

theorem mem_all_elim {d : Domain} {p : Permutation} (h : p ∈ d.all) :
    ∃ s, Domain.new s = some p.domain := by
  unfold Domain.all at h
  rcases List.mem_flatMap.mp h with ⟨k, _, hk⟩
  rcases List.mem_filterMap.mp hk with ⟨s, _, hs⟩
  unfold mkPermutation at hs
  rcases Option.map_eq_some'.mp hs with ⟨d', hd', rfl⟩
  exact ⟨s, hd'⟩

theorem mem_results_intro (s : String) (dom : Domain) (k : MutationKind)
    (cand : String) (p : Permutation)
    (hdom : Domain.new s = some dom) (hk : k ∈ strategyOrder)
    (hc : cand ∈ strategyCands dom k) (hp : mkPermutation k cand = some p) :
    toResult p ∈ permutationResults s := by
  rw [permutationResults_eq hdom]
  exact List.mem_map_of_mem toResult (List.mem_dedup.mpr (mem_all_intro hk hc hp))

theorem mem_results_elim {s : String} {r : Result} (h : r ∈ permutationResults s) :
    ∃ p : Permutation, toResult p = r ∧ Canonical p.domain := by
  cases hn : Domain.new s with
  | none =>
    rw [permutationResults_nil hn] at h
    exact absurd h (by simp)
  | some dom =>
    rw [permutationResults_eq hn] at h
    rcases List.mem_map.mp h with ⟨p, hp, rfl⟩
    rcases mem_all_elim (List.mem_dedup.mp hp) with ⟨s', hs'⟩
    exact ⟨p, rfl, canonical_of_new hs'⟩

theorem kindString_mem_kindStrings (k : MutationKind) : kindString k ∈ kindStrings := by
  cases k <;> decide

theorem kindString_inj {k₁ k₂ : MutationKind} (h : kindString k₁ = kindString k₂) :
    k₁ = k₂ := by
  cases k₁ <;> cases k₂ <;> first | rfl | exact absurd h (by decide)

theorem toResult_inj {p q : Permutation} (hp : Canonical p.domain)
    (hq : Canonical q.domain) (h : toResult p = toResult q) : p = q := by
  unfold toResult at h
  injection h with h₁ h₂ h₃
  have hd : p.domain = q.domain := canonical_inj hp hq h₁
  have hk : p.kind = q.kind := kindString_inj h₃
  have : Permutation.mk p.domain p.kind = Permutation.mk q.domain q.kind := by
    rw [hd, hk]
  exact this

theorem results_eq_permutationResults {s : String} {l : List Result}
    (hl : generate_permutations s = .ok l) : l = permutationResults s := by
  unfold permutationResults
  rw [hl]

/-! ## Claims -/

/-- Claim C1, counterexample: for the input "a.com" the final collection
contains two distinct records with the same fqdn "aa.com", one produced by
Addition (appending the letter a) and one by Repetition (duplicating the
letter a).  Both survive the set-based deduplication because the strategy tag
is part of the record the set compares, so the claim that no two output
records share a fqdn is false. -/
theorem C1_counterexample :
    (⟨"aa.com", "com", "Addition"⟩ : Result) ∈ permutationResults "a.com" ∧
    (⟨"aa.com", "com", "Repetition"⟩ : Result) ∈ permutationResults "a.com" ∧
    (⟨"aa.com", "com", "Addition"⟩ : Result) ≠ (⟨"aa.com", "com", "Repetition"⟩ : Result) ∧
    (Result.fqdn ⟨"aa.com", "com", "Addition"⟩) = (Result.fqdn ⟨"aa.com", "com", "Repetition"⟩) :=
  ⟨mem_results_intro "a.com" ⟨"a.com", "a", "com"⟩ .Addition "aa.com"
      ⟨⟨"aa.com", "aa", "com"⟩, .Addition⟩ (by decide) (by decide) (by decide) (by decide),
   mem_results_intro "a.com" ⟨"a.com", "a", "com"⟩ .Repetition "aa.com"
      ⟨⟨"aa.com", "aa", "com"⟩, .Repetition⟩ (by decide) (by decide) (by decide) (by decide),
   by decide, rfl⟩

/-- Claim C1 (amended): the deduplication key is the whole record, not the
fqdn alone — no two output records agree on both fqdn and kind (the tld is
determined by the fqdn), but records sharing a fqdn with different kinds may
both survive. -/
theorem C1_fqdn_kind_key (s : String) (l : List Result) (r₁ r₂ : Result)
    (hl : generate_permutations s = .ok l) (h₁ : r₁ ∈ l) (h₂ : r₂ ∈ l)
    (hf : r₁.fqdn = r₂.fqdn) (hk : r₁.kind = r₂.kind) : r₁ = r₂ := by
  rw [results_eq_permutationResults hl] at h₁ h₂
  rcases mem_results_elim h₁ with ⟨p, rfl, hp⟩
  rcases mem_results_elim h₂ with ⟨q, rfl, hq⟩
  have hd : p.domain = q.domain := canonical_inj hp hq hf
  have hkk : p.kind = q.kind := kindString_inj hk
  have hpq : Permutation.mk p.domain p.kind = Permutation.mk q.domain q.kind := by
    rw [hd, hkk]
  exact congrArg toResult hpq

/-- Claim C1, witness for the amended theorem at the concrete input
"a.com". -/
theorem C1_fqdn_kind_key_witness :
    (⟨"aa.com", "com", "Addition"⟩ : Result) = (⟨"aa.com", "com", "Addition"⟩ : Result) :=
  C1_fqdn_kind_key "a.com" (permutationResults "a.com") _ _ rfl
    (mem_results_intro "a.com" ⟨"a.com", "a", "com"⟩ .Addition "aa.com"
      ⟨⟨"aa.com", "aa", "com"⟩, .Addition⟩ (by decide) (by decide) (by decide) (by decide))
    (mem_results_intro "a.com" ⟨"a.com", "a", "com"⟩ .Addition "aa.com"
      ⟨⟨"aa.com", "aa", "com"⟩, .Addition⟩ (by decide) (by decide) (by decide) (by decide))
    rfl rfl

/-- Claim C2: any input the parser rejects — the match on `Domain::new` in
`lib.rs` lines 18–21 — produces `Ok` with the empty collection, not an
error. -/
theorem C2_empty_on_parse_failure (s : String) (h : Domain.new s = none) :
    generate_permutations s = .ok [] :=
  generate_permutations_eq_nil h

/-- Claim C2, witness: the empty string fails to parse and yields the empty
collection. -/
theorem C2_empty_on_parse_failure_witness :
    Domain.new "" = none ∧ generate_permutations "" = .ok [] :=
  ⟨by decide, C2_empty_on_parse_failure "" (by decide)⟩

/-- Claim C3: generation is deterministic — any two runs on the same input,
each observed as an arbitrary enumeration of the final hash set, carry
identical collections of records (the same records with the same kinds),
given the fixed external tables. -/
theorem C3_deterministic (s : String) (out₁ out₂ : List Result)
    (h₁ : out₁.Perm (permutationResults s)) (h₂ : out₂.Perm (permutationResults s)) :
    (out₁ : Multiset Result) = (out₂ : Multiset Result) :=
  Multiset.coe_eq_coe.mpr (h₁.trans h₂.symm)

/-- Claim C3, witness at the concrete input "a.com". -/
theorem C3_deterministic_witness :
    ((permutationResults "a.com" : List Result) : Multiset Result) =
      (permutationResults "a.com" : List Result) :=
  C3_deterministic "a.com" _ _ (List.Perm.refl _) (List.Perm.refl _)

/-- Claim C4, counterexample: the original normalized FQDN "example.com" does
appear in the output for input "example.com" — the TldVariation strategy
re-pairs the root with every candidate TLD, including the original's own
"com", and nothing filters the regenerated original out. -/
theorem C4_counterexample :
    Domain.new "example.com" = some ⟨"example.com", "example", "com"⟩ ∧
    (⟨"example.com", "com", "TldVariation"⟩ : Result) ∈ permutationResults "example.com" :=
  ⟨by decide,
   mem_results_intro "example.com" ⟨"example.com", "example", "com"⟩ .TldVariation "example.com"
     ⟨⟨"example.com", "example", "com"⟩, .TldVariation⟩
     (by decide) (by decide) (by decide) (by decide)⟩

/-- Claim C4 (amended): the original normalized FQDN can appear in the output
when a strategy legitimately regenerates it (TldVariation re-pairs the root
with the original's own TLD); any output record bearing the original fqdn is
the regenerated original domain itself — it carries the original's tld. -/
theorem C4_self_inclusion (s : String) (d : Domain) (l : List Result) (r : Result)
    (hd : Domain.new s = some d) (hl : generate_permutations s = .ok l)
    (hr : r ∈ l) (hf : r.fqdn = d.fqdn) : r.tld = d.tld := by
  rw [results_eq_permutationResults hl] at hr
  rcases mem_results_elim hr with ⟨p, rfl, hp⟩
  have hdd : p.domain = d := canonical_inj hp (canonical_of_new hd) hf
  exact congrArg Domain.tld hdd

/-- Claim C4, witness for the amended theorem: the regenerated original
record of "example.com" carries the original tld "com". -/
theorem C4_self_inclusion_witness :
    Result.tld ⟨"example.com", "com", "TldVariation"⟩ =
      Domain.tld ⟨"example.com", "example", "com"⟩ :=
  C4_self_inclusion "example.com" ⟨"example.com", "example", "com"⟩
    (permutationResults "example.com") ⟨"example.com", "com", "TldVariation"⟩
    (by decide) rfl
    (mem_results_intro "example.com" ⟨"example.com", "example", "com"⟩ .TldVariation "example.com"
      ⟨⟨"example.com", "example", "com"⟩, .TldVariation⟩
      (by decide) (by decide) (by decide) (by decide))
    rfl

/-- Claim C5: every emitted fqdn independently re-parses successfully under
the domain parser — raw strategy byproducts that fail to re-parse are dropped
inside the generation step and never reach the output. -/
theorem C5_validity (s : String) (l : List Result) (r : Result)
    (hl : generate_permutations s = .ok l) (hr : r ∈ l) :
    ∃ d : Domain, Domain.new r.fqdn = some d := by
  rw [results_eq_permutationResults hl] at hr
  rcases mem_results_elim hr with ⟨p, rfl, hp⟩
  exact ⟨p.domain, hp⟩

/-- Claim C5, witness: the emitted record "aa.com" of the run on "a.com"
re-parses successfully. -/
theorem C5_validity_witness :
    ∃ d : Domain,
      Domain.new (Result.fqdn ⟨"aa.com", "com", "Addition"⟩) = some d :=
  C5_validity "a.com" (permutationResults "a.com") ⟨"aa.com", "com", "Addition"⟩ rfl
    (mem_results_intro "a.com" ⟨"a.com", "a", "com"⟩ .Addition "aa.com"
      ⟨⟨"aa.com", "aa", "com"⟩, .Addition⟩ (by decide) (by decide) (by decide) (by decide))

/-- Claim C6, counterexample: the output for "example.com" does contain a
record whose fqdn is "example.com" (kind TldVariation), contradicting the
claim's final conjunct. -/
theorem C6_counterexample :
    (⟨"example.com", "com", "TldVariation"⟩ : Result) ∈ permutationResults "example.com" :=
  mem_results_intro "example.com" ⟨"example.com", "example", "com"⟩ .TldVariation "example.com"
    ⟨⟨"example.com", "example", "com"⟩, .TldVariation⟩
    (by decide) (by decide) (by decide) (by decide)

/-- Claim C6 (amended): the output for "example.com" contains the Repetition
record "eexample.com", the Omission record "xample.com", and the TldVariation
record "example.net" (with "net" in the candidate TLD list) — and it also
contains the regenerated original "example.com" as a TldVariation record, so
the original is not absent from the output. -/
theorem C6_example_records :
    (⟨"eexample.com", "com", "Repetition"⟩ : Result) ∈ permutationResults "example.com" ∧
    (⟨"xample.com", "com", "Omission"⟩ : Result) ∈ permutationResults "example.com" ∧
    (⟨"example.net", "net", "TldVariation"⟩ : Result) ∈ permutationResults "example.com" ∧
    (⟨"example.com", "com", "TldVariation"⟩ : Result) ∈ permutationResults "example.com" :=
  ⟨mem_results_intro "example.com" ⟨"example.com", "example", "com"⟩ .Repetition "eexample.com"
      ⟨⟨"eexample.com", "eexample", "com"⟩, .Repetition⟩
      (by decide) (by decide) (by decide) (by decide),
   mem_results_intro "example.com" ⟨"example.com", "example", "com"⟩ .Omission "xample.com"
      ⟨⟨"xample.com", "xample", "com"⟩, .Omission⟩
      (by decide) (by decide) (by decide) (by decide),
   mem_results_intro "example.com" ⟨"example.com", "example", "com"⟩ .TldVariation "example.net"
      ⟨⟨"example.net", "example", "net"⟩, .TldVariation⟩
      (by decide) (by decide) (by decide) (by decide),
   mem_results_intro "example.com" ⟨"example.com", "example", "com"⟩ .TldVariation "example.com"
      ⟨⟨"example.com", "example", "com"⟩, .TldVariation⟩
      (by decide) (by decide) (by decide) (by decide)⟩

/-- Claim C7: an input that is empty, longer than 253 characters, contains a
label longer than 63 characters (after case normalization), or whose labels
end in no recognizable public suffix, is rejected by the parser, and the
boundary returns the empty collection. -/
theorem C7_reject_malformed (s : String)
    (h : s.data.length = 0 ∨ 253 < s.data.length ∨
         (∃ l ∈ splitOnDot (toLowerStr s).data, 63 < l.length) ∨
         (∀ t ∈ tldList, tldMatches (splitOnDot (toLowerStr s).data) t = false)) :
    generate_permutations s = .ok [] := by
  apply generate_permutations_eq_nil
  unfold Domain.new Domain.ofLower
  have hlen : (toLowerStr s).data.length = s.data.length := by
    unfold toLowerStr
    exact List.length_map s.data lowerChar
  by_cases e0 : (toLowerStr s).data.length = 0
  · rw [if_pos e0]
  by_cases e2 : 253 < (toLowerStr s).data.length
  · rw [if_neg e0, if_pos e2]
  rcases h with h | h | ⟨l, hl, h63⟩ | h
  · omega
  · omega
  · have hall : ¬((splitOnDot (toLowerStr s).data).all labelOk = true) := by
      intro hall
      have := List.all_eq_true.mp hall l hl
      unfold labelOk at this
      simp only [Bool.and_eq_true, decide_eq_true_eq] at this
      omega
    rw [if_neg e0, if_neg e2, if_neg hall]
  · by_cases hall : (splitOnDot (toLowerStr s).data).all labelOk = true
    · rw [if_neg e0, if_neg e2, if_pos hall]
      have hfil : tldList.filter (tldMatches (splitOnDot (toLowerStr s).data)) = [] := by
        rw [List.filter_eq_nil_iff]
        intro t ht
        simp [h t ht]
      rw [hfil]
      rfl
    · rw [if_neg e0, if_neg e2, if_neg hall]

/-- Claim C7, witness: "localhost" has no recognizable public suffix and
yields the empty collection. -/
theorem C7_reject_malformed_witness :
    (∀ t ∈ tldList, tldMatches (splitOnDot (toLowerStr "localhost").data) t = false) ∧
    generate_permutations "localhost" = .ok [] :=
  ⟨by decide, C7_reject_malformed "localhost" (.inr (.inr (.inr (by decide))))⟩

/-- Claim C8: the kind field of every emitted record is the producing
strategy's name — always a member of the fixed closed set of thirteen
strategy-name strings. -/
theorem C8_kind_closed (s : String) (l : List Result) (r : Result)
    (hl : generate_permutations s = .ok l) (hr : r ∈ l) :
    r.kind ∈ kindStrings := by
  rw [results_eq_permutationResults hl] at hr
  rcases mem_results_elim hr with ⟨p, rfl, _⟩
  exact kindString_mem_kindStrings p.kind

/-- Claim C8, witness: the kind of the emitted record "aa.com" of the run on
"a.com" is in the closed set. -/
theorem C8_kind_closed_witness :
    Result.kind ⟨"aa.com", "com", "Addition"⟩ ∈ kindStrings :=
  C8_kind_closed "a.com" (permutationResults "a.com") ⟨"aa.com", "com", "Addition"⟩ rfl
    (mem_results_intro "a.com" ⟨"a.com", "a", "com"⟩ .Addition "aa.com"
      ⟨⟨"aa.com", "aa", "com"⟩, .Addition⟩ (by decide) (by decide) (by decide) (by decide))

/-- Claim C9: the deduplication key actually applied is the entire permutation
record — the final collection never contains two records that agree on all
three fields (fqdn, tld, kind). -/
theorem C9_record_dedup (s : String) (l : List Result)
    (hl : generate_permutations s = .ok l) : l.Nodup := by
  cases hn : Domain.new s with
  | none =>
    rw [generate_permutations_eq_nil hn] at hl
    injection hl with hl
    rw [← hl]
    exact List.nodup_nil
  | some dom =>
    rw [generate_permutations_eq_ok hn] at hl
    injection hl with hl
    rw [← hl]
    apply List.Nodup.map_on ?_ (List.nodup_dedup _)
    intro p hp q hq heq
    rcases mem_all_elim (List.mem_dedup.mp hp) with ⟨sp, hsp⟩
    rcases mem_all_elim (List.mem_dedup.mp hq) with ⟨sq, hsq⟩
    exact toResult_inj (canonical_of_new hsp) (canonical_of_new hsq) heq

/-- Claim C9, witness at the concrete input "a.com". -/
theorem C9_record_dedup_witness : (permutationResults "a.com").Nodup :=
  C9_record_dedup "a.com" (permutationResults "a.com") rfl

/-- Claim C10: the boundary function is total over its error type — for every
input string it returns Ok with a (possibly empty) list; both failure
branches of `lib.rs` map to Ok with the empty collection, and the Err case is
never produced. -/
theorem C10_total (s : String) :
    ∃ l : List Result, generate_permutations s = .ok l := by
  cases hn : Domain.new s with
  | none => exact ⟨[], generate_permutations_eq_nil hn⟩
  | some dom => exact ⟨_, generate_permutations_eq_ok hn⟩

end DomainTwistEx
